import Mathlib

/-!
Verification of the communicator-topology and data-redistribution core of
`src/linalg/AmgXSolver.cpp` (an AmgX wrapper for MFEM).

The C++ source is shallowly embedded below: each loop of the source becomes a
recursive Lean function over `List Int` (machine `int`/`int64_t` values are
modelled as unbounded `Int`; the value arrays of `double`s are modelled with a
type parameter, since the code only moves values and never computes with them).
-/

namespace AmgX

/-! ## The row-pointer merge of `AmgXSolver::setA` (lines 497-548)

On the device-group leader, `all_I` holds the concatenation of the per-rank CSR
row pointers.  The code repairs it in place:

```
int iter = 1;
while(iter < devWorldSize-1){
  // scan for zeros at positions 1 .. Size-2, record idx-1 into z_ind
  // bump: for idx in [z_ind[1]+1, z_ind[2]):
  //   all_I[idx] = all_I[idx-1] + (all_I[idx+1] - all_I[idx])
  // shift: for idx in [z_ind[2], Size-1): all_I[idx] = all_I[idx+1]
  iter++;
}
// final scan, then bump over [z_ind[1]+1, Size-1)
local_nnz = all_I[Size - devWorldSize];
```
-/

/-- The zero scan `for(idx=1; idx<Size-1; idx++) if(all_I[idx]==0) z_ind[c++]=idx-1`
abstracted to start position `s` and trip count `n`. -/
def zScan (a : List Int) (s n : Nat) : List Nat :=
  (List.range' s n).filterMap fun idx => if a.getD idx 0 = 0 then some (idx - 1) else none

/-- The zero positions recorded into `z_ind[1], z_ind[2], ...` by the scan in
`setA` (the scan runs over `idx = 1 .. all_I.Size()-2`). -/
def zSeams (a : List Int) : List Nat := zScan a 1 (a.length - 2)

/-- The sequential bump loop
`for(idx = s; idx < s+fuel; idx++) all_I[idx] = all_I[idx-1] + (all_I[idx+1] - all_I[idx])`. -/
def bumpFrom : List Int → Nat → Nat → List Int
  | a, _, 0 => a
  | a, idx, fuel + 1 =>
      bumpFrom (a.set idx (a.getD (idx - 1) 0 + (a.getD (idx + 1) 0 - a.getD idx 0)))
        (idx + 1) fuel

/-- The sequential shift loop `for(idx = e; idx < e+fuel; ++idx) all_I[idx] = all_I[idx+1]`. -/
def shiftFrom : List Int → Nat → Nat → List Int
  | a, _, 0 => a
  | a, idx, fuel + 1 => shiftFrom (a.set idx (a.getD (idx + 1) 0)) (idx + 1) fuel

/-- Helper `zIdx a j` is `z_ind[j+1]` after a zero scan.  When fewer than `j+1` zeros
are found the code would read a stale `z_ind` entry; the default
`a.length - 1` mirrors the `z_ind[devWorldSize] = Size-1` write and is never
reached in any theorem below. -/
def zIdx (a : List Int) (j : Nat) : Nat := (zSeams a).getD j (a.length - 1)

/-- One iteration of the `while(iter < devWorldSize-1)` loop of `setA`:
zero scan, bump over `[z_ind[1]+1, z_ind[2])`, then shift over `[z_ind[2], Size-1)`. -/
def mergePass (a : List Int) : List Int :=
  shiftFrom (bumpFrom a (zIdx a 0 + 1) (zIdx a 1 - (zIdx a 0 + 1))) (zIdx a 1)
    (a.length - 1 - zIdx a 1)

/-- The post-loop "LAST TIME THROUGH ARRAY" block of `setA`: one more zero scan
followed by a bump over `[z_ind[1]+1, Size-1)`. -/
def lastPass (a : List Int) : List Int :=
  bumpFrom a (zIdx a 0 + 1) (a.length - 1 - (zIdx a 0 + 1))

/-- The whole leader-side row-pointer merge of `setA` for a device group of
`k = devWorldSize` ranks: `k - 2` iterations of the while loop, then the final
pass (`iter` starts at `1` and the loop runs while `iter < k-1`). -/
def mergeRowPtr (k : Nat) (a : List Int) : List Int :=
  lastPass (mergePass^[k - 2] a)

/-- The read `local_nnz = all_I[all_I.Size() - devWorldSize]` read off after the merge. -/
def setA_local_nnz (k : Nat) (a : List Int) : Int :=
  (mergeRowPtr k a).getD (a.length - k) 0

/-! ### Specification-side merge (what §4.5/§8 of the design describe) -/

/-- Last element of a row-pointer list (`0` for the empty list). -/
def lastD (l : List Int) : Int := l.getD (l.length - 1) 0

/-- Merging two row-pointer fragments: keep the first, append the tail of the
second shifted by the first's final value. -/
def merge2 (F G : List Int) : List Int := F ++ G.tail.map (fun x => lastD F + x)

/-- Merging a list of fragments left to right. -/
def mergeAll : List (List Int) → List Int
  | [] => []
  | F :: Fs => Fs.foldl merge2 F

/-- A well-formed local row-pointer fragment from a rank owning at least one
row and whose first row is non-empty: length ≥ 2, starts at 0, all later
entries positive, monotone non-decreasing. -/
def GoodFrag (F : List Int) : Prop :=
  2 ≤ F.length ∧ F.headD 1 = 0 ∧ (∀ x ∈ F.tail, 0 < x) ∧ List.Sorted (· ≤ ·) F

instance : DecidablePred GoodFrag := fun F => by
  unfold GoodFrag
  infer_instance

/-! ## `AmgXSolver::setDeviceIDs` (lines 186-221)

Device id and leader flag (`gpuProc == 0`) for a node-local rank, given the
node-local process count `localSize` and the device count `nDevs`. -/

def setDeviceIDs (localSize nDevs myLocalRank : Nat) : Nat × Bool :=
  if nDevs = localSize then (myLocalRank, true)
  else if localSize < nDevs then (myLocalRank, true)
  else if myLocalRank < (localSize / nDevs + 1) * (localSize % nDevs) then
    (myLocalRank / (localSize / nDevs + 1),
     myLocalRank % (localSize / nDevs + 1) == 0)
  else
    ((myLocalRank - (localSize / nDevs + 1) * (localSize % nDevs)) / (localSize / nDevs)
        + localSize % nDevs,
     (myLocalRank - (localSize / nDevs + 1) * (localSize % nDevs)) % (localSize / nDevs) == 0)

/-! ## The row partition table of `AmgXSolver::setA` (lines 552-566)

`rowPart` has size `gpuWorldSize+1` and starts zero-filled; the all-gather of
`local_rows` fills positions `1..gpuWorldSize`; then the in-place fixup loop
`for(i=1; i<rowPart.Size(); ++i) rowPart[i] += rowPart[i-1]` turns it into the
prefix-sum table. -/

/-- The fixup loop `for(i; i < i+fuel; ++i) a[i] = a[i] + a[i-1]`. -/
def fixupFrom : List Int → Nat → Nat → List Int
  | a, _, 0 => a
  | a, i, fuel + 1 => fixupFrom (a.set i (a.getD i 0 + a.getD (i - 1) 0)) (i + 1) fuel

/-- The table `rowPart` after gather and fixup, as a function of the gathered per-leader
row counts. -/
def buildRowPart (counts : List Int) : List Int :=
  fixupFrom (0 :: counts) 1 counts.length

/-! ## `AmgXSolver::GatherArray` / `AmgXSolver::ScatterArray` (lines 597-625)

`GatherArray` all-gathers the per-rank sizes into `Apart`, builds the
displacement array `Adisp[0]=0; Adisp[i]=Adisp[i-1]+Apart[i-1]`, and
`MPI_Gatherv` places each rank's array at its displacement in the leader's
buffer.  `ScatterArray` is `MPI_Scatterv` with the same `Apart`/`Adisp`.
The element type is a parameter: the code only moves `double`s, it never
computes with them. -/

/-- The counts `Apart`: the all-gathered per-rank element counts. -/
def apartOf {α : Type} (xs : List (List α)) : List Nat := xs.map List.length

/-- The displacements `Adisp`: the prefix-sum displacement loop. -/
def adispOf (counts : List Nat) : List Nat :=
  (List.scanl (· + ·) 0 counts).take counts.length

/-- One `MPI_Gatherv` contribution: place `seg` into `buf` at offset `off`. -/
def writeSeg {α : Type} (buf : List α) (off : Nat) (seg : List α) : List α :=
  buf.take off ++ seg ++ buf.drop (off + seg.length)

/-- The collective `MPI_Gatherv` at the root: every rank's array lands at its displacement in
the leader's receive buffer. -/
def gatherArray {α : Type} (xs : List (List α)) (buf : List α) : List α :=
  (List.zip (adispOf (apartOf xs)) xs).foldl (fun b p => writeSeg b p.1 p.2) buf

/-- The collective `MPI_Scatterv`: rank `r` receives `Apart[r]` elements starting at
`Adisp[r]`. -/
def scatterArray {α : Type} (buf : List α) (counts disps : List Nat) (r : Nat) :
    List α :=
  (buf.drop (disps.getD r 0)).take (counts.getD r 0)

/-! ## `AmgXSolver::finalize` (lines 667-719)

The function first tests `if (! isInitialized)` and prints a diagnostic — but
there is no early return, so the teardown below it runs regardless.  The
`MPI_Comm_free(&gpuWorld)` call is commented out in the source; only the
global, node-local and device-group communicators are freed.  At the end
`gpuProc = MPI_UNDEFINED`, `count -= 1`, `isInitialized = false`. -/

/-- The external calls `finalize` can make, in program order. -/
inductive FinalizeAction : Type
  | reportNotInitialized
  | destroySolver
  | destroyMatrix
  | destroyVecP
  | destroyVecRHS
  | destroyResources
  | destroyConfig
  | finalizePlugins
  | finalizeAmgXLib
  | freeGlobalCpuWorld
  | freeLocalCpuWorld
  | freeDevWorld
  | freeGpuWorld
deriving DecidableEq

/-- The instance state read and written by `finalize`. `gpuProc = 0` marks a
device-group leader. -/
structure SolverInst where
  isInitialized : Bool
  gpuProc : Int
  count : Int
deriving DecidableEq

def MPI_UNDEFINED : Int := -32766

/-- The function `AmgXSolver::finalize`: resulting state and emitted action trace. -/
def finalize (s : SolverInst) : SolverInst × List FinalizeAction :=
  ({ isInitialized := false, gpuProc := MPI_UNDEFINED, count := s.count - 1 },
   (if s.isInitialized = false then [FinalizeAction.reportNotInitialized] else []) ++
     ((if s.gpuProc = 0 then
        [FinalizeAction.destroySolver, FinalizeAction.destroyMatrix,
         FinalizeAction.destroyVecP, FinalizeAction.destroyVecRHS] ++
          (if s.count = 1 then
            [FinalizeAction.destroyResources, FinalizeAction.destroyConfig,
             FinalizeAction.finalizePlugins, FinalizeAction.finalizeAmgXLib]
           else [FinalizeAction.destroyConfig])
       else []) ++
       [FinalizeAction.freeGlobalCpuWorld, FinalizeAction.freeLocalCpuWorld,
        FinalizeAction.freeDevWorld]))

/-! ## The leader-side merge block of `setA` (lines 494-548) as a state
transformer: it writes `all_I`, `local_nnz`, `local_rows` and nothing else. -/

structure LeaderBlockState (α : Type) where
  all_I : List Int
  all_J : List Int
  all_A : List α
  local_nnz : Int
  local_rows : Int

/-- The block of `setA` run by `myDevWorldRank == 0` between the gathers and
the matrix upload. -/
def setA_leaderMerge {α : Type} (k : Nat) (nDevRows : Int)
    (s : LeaderBlockState α) : LeaderBlockState α :=
  { s with
    all_I := mergeRowPtr k s.all_I
    local_nnz := (mergeRowPtr k s.all_I).getD (s.all_I.length - k) 0
    local_rows := nDevRows }

/-! ## `AmgXSolver::solve` (lines 627-664)

`X` and `B` are gathered to the device-group leader, uploaded, the engine is
invoked, its status is read, a non-success status is only printed, the
solution buffer is downloaded into `all_X` and scattered back into `X`.
The engine is a black box: a function from the uploaded `(all_X, all_B)` to
the solution buffer it leaves behind, plus an arbitrary status. -/

inductive SolveAction : Type
  | uploadP
  | uploadRHS
  | invokeSolve
  | reportFailure
  | downloadP
  | abortRun
deriving DecidableEq

def AMGX_SOLVE_SUCCESS : Int := 0

/-- The function `solve`: final per-rank `X` (indexed by devWorld rank), final per-rank `B`,
and the leader-side action trace. -/
def solve {α : Type} (engine : List α → List α → List α) (status : Int)
    (xs bs : List (List α)) (bufX bufB : List α) :
    (Nat → List α) × List (List α) × List SolveAction :=
  (fun r => scatterArray (engine (gatherArray xs bufX) (gatherArray bs bufB))
      (apartOf xs) (adispOf (apartOf xs)) r,
   bs,
   [SolveAction.uploadP, SolveAction.uploadRHS, SolveAction.invokeSolve] ++
     (if status ≠ AMGX_SOLVE_SUCCESS then [SolveAction.reportFailure] else []) ++
     [SolveAction.downloadP])

/-! ## `AmgXSolver::GetLocalA` (lines 272-343)

Per local row the code walks the off-diagonal entries while their mapped
global column `cmap[OffJ]` is below this process's column-range start
`cstart` (the `break` at `icol >= cstart`), then emits all diagonal entries at
`cstart + local column`, then the remaining off-diagonal entries.  Rows are
given as `(local column, value)` lists with sorted columns; the input contract
supplies the increasing local-to-global column map `cmap`, so the mapped
off-diagonal columns are sorted per row.  Values are opaque. -/

/-- One row of the output `J`/`Data` arrays, as `(global column, value)`
pairs: the off-diagonal prefix below `cstart`, the diagonal block, the
off-diagonal remainder. -/
def emitRow {α : Type} (cmap : Nat → Int) (cstart : Int) (d o : List (Nat × α)) :
    List (Int × α) :=
  (o.takeWhile (fun e => decide (cmap e.1 < cstart))).map (fun e => (cmap e.1, e.2)) ++
    d.map (fun e => (cstart + (e.1 : Int), e.2)) ++
    (o.dropWhile (fun e => decide (cmap e.1 < cstart))).map (fun e => (cmap e.1, e.2))

/-- The output row pointer `I`: `I[0] = 0`,
`I[i+1] = I[i] + (DiagI[i+1]-DiagI[i]) + (OffI[i+1]-OffI[i])`. -/
def getLocalI {α : Type} (d o : List (List (Nat × α))) : List Int :=
  List.scanl (fun acc p => acc + (p.1.length : Int) + (p.2.length : Int)) 0 (d.zip o)

/-- The output `J`/`Data` arrays, row by row. -/
def getLocalJA {α : Type} (cmap : Nat → Int) (cstart : Int)
    (d o : List (List (Nat × α))) : List (List (Int × α)) :=
  (d.zip o).map (fun p => emitRow cmap cstart p.1 p.2)

/-! ## Claim witnesses and counterexamples -/

/-- The scenario fragments of the design document. -/
def exFrags : List (List Int) := [[0, 2, 5], [0, 3], [0, 1, 4]]

/-- A concrete diagonal block: two local rows, `(local column, value)`. -/
def exDiag : List (List (Nat × Int)) := [[(0, 10)], []]

/-- A concrete off-diagonal block for the same two rows. -/
def exOffd : List (List (Nat × Int)) := [[(0, 5), (1, 7)], [(1, 8)]]

/-- A concrete increasing local-to-global column map. -/
def exCmap : Nat → Int := fun n => (n : Int) * 5

/-! ## Theorems -/

/-! ## Basic list toolkit (getD-based indexing) -/

theorem getD_set (a : List Int) (i j : Nat) (v : Int) :
    (a.set i v).getD j 0 = if i = j ∧ j < a.length then v else a.getD j 0 := by
  induction a generalizing i j with
  | nil => simp [List.getD_nil]
  | cons x xs ih =>
    cases i with
    | zero =>
      cases j with
      | zero => simp
      | succ j => simp [List.getD_cons_succ]
    | succ i =>
      cases j with
      | zero => simp
      | succ j =>
        simp only [List.set_cons_succ, List.getD_cons_succ, ih, List.length_cons]
        have h : (i = j ∧ j < xs.length) ↔ (i + 1 = j + 1 ∧ j + 1 < xs.length + 1) := by omega
        simp only [if_congr h rfl rfl]

theorem getD_append_left {a b : List Int} {i : Nat} (h : i < a.length) :
    (a ++ b).getD i 0 = a.getD i 0 := by
  induction a generalizing i with
  | nil => simp at h
  | cons x xs ih =>
    cases i with
    | zero => simp
    | succ i =>
      simp only [List.cons_append, List.getD_cons_succ]
      exact ih (by simpa using h)

theorem getD_append_right {a b : List Int} {i : Nat} (h : a.length ≤ i) :
    (a ++ b).getD i 0 = b.getD (i - a.length) 0 := by
  induction a generalizing i with
  | nil => simp
  | cons x xs ih =>
    cases i with
    | zero => simp at h
    | succ i =>
      simp only [List.cons_append, List.getD_cons_succ, List.length_cons]
      rw [ih (by simpa using h)]
      congr 1
      omega

theorem ext_getD {a b : List Int} (hlen : a.length = b.length)
    (h : ∀ i, i < a.length → a.getD i 0 = b.getD i 0) : a = b := by
  apply List.ext_getElem hlen
  intro n h1 h2
  have := h n h1
  rwa [List.getD_eq_getElem _ _ h1, List.getD_eq_getElem _ _ h2] at this

theorem getD_replicate {L : Int} {t i : Nat} (h : i < t) :
    (List.replicate t L).getD i 0 = L := by
  rw [List.getD_eq_getElem _ _ (by simpa using h)]
  simp

theorem getD_of_length_le {a : List Int} {i : Nat} (h : a.length ≤ i) :
    a.getD i 0 = 0 := by
  induction a generalizing i with
  | nil => simp [List.getD_nil]
  | cons x xs ih =>
    cases i with
    | zero => simp at h
    | succ i => simp only [List.getD_cons_succ]; exact ih (by simpa using h)

/-! ### Closed forms for the imperative loops -/

theorem bumpFrom_length (a : List Int) (s fuel : Nat) :
    (bumpFrom a s fuel).length = a.length := by
  induction fuel generalizing a s with
  | zero => rfl
  | succ fuel ih => rw [bumpFrom, ih, List.length_set]

theorem shiftFrom_length (a : List Int) (s fuel : Nat) :
    (shiftFrom a s fuel).length = a.length := by
  induction fuel generalizing a s with
  | zero => rfl
  | succ fuel ih => rw [shiftFrom, ih, List.length_set]

theorem mergePass_length (a : List Int) : (mergePass a).length = a.length := by
  rw [mergePass, shiftFrom_length, bumpFrom_length]

theorem lastPass_length (a : List Int) : (lastPass a).length = a.length := by
  rw [lastPass, bumpFrom_length]

/-- Telescoped closed form of the bump loop: each position `i` in the bumped
window takes the value `a[s-1] - a[s] + a[i+1]`. -/
theorem bumpFrom_getD (fuel : Nat) :
    ∀ (a : List Int) (s : Nat), 1 ≤ s → ∀ i,
      (bumpFrom a s fuel).getD i 0 =
        if s ≤ i ∧ i < s + fuel ∧ i < a.length then
          a.getD (s - 1) 0 - a.getD s 0 + a.getD (i + 1) 0
        else a.getD i 0 := by
  induction fuel with
  | zero =>
    intro a s _ i
    have h : ¬ (s ≤ i ∧ i < s + 0 ∧ i < a.length) := by omega
    rw [bumpFrom, if_neg h]
  | succ fuel ih =>
    intro a s hs i
    rw [bumpFrom]
    set v : Int := a.getD (s - 1) 0 + (a.getD (s + 1) 0 - a.getD s 0) with hv
    set a' : List Int := a.set s v with ha'
    have hlen : a'.length = a.length := List.length_set a s v
    have hget : ∀ j, a'.getD j 0 = if s = j ∧ j < a.length then v else a.getD j 0 :=
      fun j => getD_set a s j v
    rw [ih a' (s + 1) (by omega) i, hlen]
    by_cases hrange : s + 1 ≤ i ∧ i < s + 1 + fuel ∧ i < a.length
    · have h2 : s ≤ i ∧ i < s + (fuel + 1) ∧ i < a.length := by omega
      rw [if_pos hrange, if_pos h2]
      have e1 : a'.getD (s + 1 - 1) 0 = v := by
        have hs1 : s + 1 - 1 = s := by omega
        rw [hs1, hget]
        exact if_pos ⟨rfl, by omega⟩
      have e2 : a'.getD (s + 1) 0 = a.getD (s + 1) 0 := by
        rw [hget]
        have : ¬ (s = s + 1 ∧ s + 1 < a.length) := by omega
        rw [if_neg this]
      have e3 : a'.getD (i + 1) 0 = a.getD (i + 1) 0 := by
        rw [hget]
        have : ¬ (s = i + 1 ∧ i + 1 < a.length) := by omega
        rw [if_neg this]
      rw [e1, e2, e3, hv]
      ring
    · rw [if_neg hrange, hget]
      by_cases hi : s = i ∧ i < a.length
      · have h2 : s ≤ i ∧ i < s + (fuel + 1) ∧ i < a.length := by omega
        rw [if_pos hi, if_pos h2, hv, ← hi.1]
        ring
      · have h2 : ¬ (s ≤ i ∧ i < s + (fuel + 1) ∧ i < a.length) := by omega
        rw [if_neg hi, if_neg h2]

/-- Closed form of the shift loop: a left shift by one on the window `[e, e+fuel)`. -/
theorem shiftFrom_getD (fuel : Nat) :
    ∀ (a : List Int) (e : Nat) (i : Nat),
      (shiftFrom a e fuel).getD i 0 =
        if e ≤ i ∧ i < e + fuel ∧ i < a.length then a.getD (i + 1) 0
        else a.getD i 0 := by
  induction fuel with
  | zero =>
    intro a e i
    have h : ¬ (e ≤ i ∧ i < e + 0 ∧ i < a.length) := by omega
    rw [shiftFrom, if_neg h]
  | succ fuel ih =>
    intro a e i
    rw [shiftFrom]
    set v : Int := a.getD (e + 1) 0 with hv
    set a' : List Int := a.set e v with ha'
    have hlen : a'.length = a.length := List.length_set a e v
    have hget : ∀ j, a'.getD j 0 = if e = j ∧ j < a.length then v else a.getD j 0 :=
      fun j => getD_set a e j v
    rw [ih a' (e + 1) i, hlen]
    by_cases hrange : e + 1 ≤ i ∧ i < e + 1 + fuel ∧ i < a.length
    · have h2 : e ≤ i ∧ i < e + (fuel + 1) ∧ i < a.length := by omega
      rw [if_pos hrange, if_pos h2, hget]
      have : ¬ (e = i + 1 ∧ i + 1 < a.length) := by omega
      rw [if_neg this]
    · rw [if_neg hrange, hget]
      by_cases hi : e = i ∧ i < a.length
      · have h2 : e ≤ i ∧ i < e + (fuel + 1) ∧ i < a.length := by omega
        rw [if_pos hi, if_pos h2, hv, hi.1]
      · have h2 : ¬ (e ≤ i ∧ i < e + (fuel + 1) ∧ i < a.length) := by omega
        rw [if_neg hi, if_neg h2]

/-! ### The zero scan -/

/-- If the first zero in the scanned window sits at position `j`, the scan
records `j - 1` first and continues after `j`. -/
theorem zScan_peel (a : List Int) :
    ∀ (n s j : Nat), s ≤ j → j < s + n → a.getD j 0 = 0 →
      (∀ i, s ≤ i → i < j → a.getD i 0 ≠ 0) →
      zScan a s n = (j - 1) :: zScan a (j + 1) (s + n - (j + 1)) := by
  intro n
  induction n with
  | zero => intro s j h1 h2; omega
  | succ n ih =>
    intro s j h1 h2 hz hnz
    rw [zScan, List.range'_succ, List.filterMap_cons]
    by_cases hsj : s = j
    · subst hsj
      rw [if_pos hz]
      have : s + (n + 1) - (s + 1) = n := by omega
      rw [this]
      rfl
    · have hne : a.getD s 0 ≠ 0 := hnz s le_rfl (by omega)
      rw [if_neg hne]
      have := ih (s + 1) j (by omega) (by omega) hz (fun i hi1 hi2 => hnz i (by omega) hi2)
      rw [zScan] at this
      rw [this]
      have : s + 1 + n - (j + 1) = s + (n + 1) - (j + 1) := by omega
      rw [this]

/-- If the scanned window holds no zero, the scan records nothing. -/
theorem zScan_nil (a : List Int) :
    ∀ (n s : Nat), (∀ i, s ≤ i → i < s + n → a.getD i 0 ≠ 0) → zScan a s n = [] := by
  intro n
  induction n with
  | zero => intro s _; rfl
  | succ n ih =>
    intro s h
    rw [zScan, List.range'_succ, List.filterMap_cons, if_neg (h s le_rfl (by omega))]
    exact ih (s + 1) (fun i hi1 hi2 => h i (by omega) (by omega))

/-! ### Fragment access helpers -/

theorem tail_getD (l : List Int) (i : Nat) : l.tail.getD i 0 = l.getD (i + 1) 0 := by
  cases l <;> simp [List.getD_cons_succ, List.getD_nil]

theorem getD_mem {l : List Int} {i : Nat} (h : i < l.length) : l.getD i 0 ∈ l := by
  rw [List.getD_eq_getElem _ _ h]
  exact List.getElem_mem _

theorem getD_map (f : Int → Int) {l : List Int} {i : Nat} (h : i < l.length) :
    (l.map f).getD i 0 = f (l.getD i 0) := by
  rw [List.getD_eq_getElem _ _ (by simpa using h), List.getD_eq_getElem _ _ h,
    List.getElem_map]

theorem tailPos_getD {l : List Int} (h : ∀ x ∈ l.tail, 0 < x) :
    ∀ i, 1 ≤ i → i < l.length → 0 < l.getD i 0 := by
  intro i h1 h2
  have e : l.getD i 0 = l.tail.getD (i - 1) 0 := by
    rw [tail_getD]
    congr 1
    omega
  rw [e]
  exact h _ (getD_mem (by rw [List.length_tail]; omega))

theorem head0_getD {l : List Int} (h : l.headD 1 = 0) :
    l.getD 0 0 = 0 ∧ 1 ≤ l.length := by
  cases l with
  | nil => simp at h
  | cons x xs => simpa using h

theorem sorted_le_lastD {l : List Int} (hs : List.Sorted (· ≤ ·) l) :
    ∀ x ∈ l, x ≤ lastD l := by
  intro x hx
  obtain ⟨i, hi, rfl⟩ := List.getElem_of_mem hx
  rw [lastD, List.getD_eq_getElem _ _ (by omega)]
  rcases Nat.lt_or_ge i (l.length - 1) with h | h
  · exact List.pairwise_iff_getElem.mp hs i (l.length - 1) (by omega) (by omega) h
  · have : i = l.length - 1 := by omega
    subst this
    exact le_refl _

theorem lastD_mem_tail {l : List Int} (h : 2 ≤ l.length) : lastD l ∈ l.tail := by
  have e : lastD l = l.tail.getD (l.length - 2) 0 := by
    rw [tail_getD, lastD]
    congr 1
    omega
  rw [e]
  exact getD_mem (by rw [List.length_tail]; omega)

theorem lastD_pos {l : List Int} (h2 : 2 ≤ l.length) (ht : ∀ x ∈ l.tail, 0 < x) :
    0 < lastD l := ht _ (lastD_mem_tail h2)

/-! ### `merge2` preserves well-formedness -/

theorem merge2_length (G F : List Int) :
    (merge2 G F).length = G.length + (F.length - 1) := by
  rw [merge2, List.length_append, List.length_map, List.length_tail]

theorem lastD_merge2 {G F : List Int} (hF : 2 ≤ F.length) :
    lastD (merge2 G F) = lastD G + lastD F := by
  rw [merge2, lastD, List.length_append, List.length_map]
  rw [getD_append_right (by rw [List.length_tail]; omega)]
  have hlt : G.length + F.tail.length - 1 - G.length < F.tail.length := by
    rw [List.length_tail]; omega
  rw [getD_map _ hlt, tail_getD, lastD]
  congr 2
  rw [List.length_tail]
  omega

theorem merge2_good {G F : List Int} (hG : GoodFrag G) (hF : GoodFrag F) :
    GoodFrag (merge2 G F) := by
  obtain ⟨hG2, hG0, hGt, hGs⟩ := hG
  obtain ⟨hF2, hF0, hFt, hFs⟩ := hF
  refine ⟨?_, ?_, ?_, ?_⟩
  · rw [merge2_length]; omega
  · rw [merge2]
    cases G with
    | nil => simp at hG2
    | cons x xs => simpa using hG0
  · intro x hx
    rw [merge2] at hx
    have hGne : G ≠ [] := by intro h; rw [h] at hG2; simp at hG2
    rw [List.tail_append_of_ne_nil hGne] at hx
    rcases List.mem_append.mp hx with h | h
    · exact hGt x h
    · obtain ⟨y, hy, rfl⟩ := List.mem_map.mp h
      have h1 : 0 < lastD G := lastD_pos hG2 hGt
      have h2 : 0 < y := hFt y hy
      omega
  · rw [merge2, List.Sorted, List.pairwise_append]
    refine ⟨hGs, ?_, ?_⟩
    · rw [List.pairwise_map]
      have : List.Pairwise (· ≤ ·) F.tail := hFs.tail
      exact this.imp (by intro a b h; omega)
    · intro x hx y hy
      obtain ⟨z, hz, rfl⟩ := List.mem_map.mp hy
      have h1 : x ≤ lastD G := sorted_le_lastD hGs x hx
      have h2 : 0 ≤ z := by
        have := hFt z hz
        omega
      omega

/-! ### One while-loop iteration merges the first two fragments -/

theorem mergePass_spec {G F R : List Int}
    (hG2 : 2 ≤ G.length) (hGt : ∀ x ∈ G.tail, 0 < x)
    (hF0 : F.headD 1 = 0) (hFt : ∀ x ∈ F.tail, 0 < x)
    (hR2 : 2 ≤ R.length) (hR0 : R.headD 1 = 0) :
    mergePass (G ++ (F ++ R)) = merge2 G F ++ (R ++ [lastD R]) := by
  have hF1 : 1 ≤ F.length := (head0_getD hF0).2
  have hFz : F.getD 0 0 = 0 := (head0_getD hF0).1
  have hRz : R.getD 0 0 = 0 := (head0_getD hR0).1
  set a : List Int := G ++ (F ++ R) with ha
  have hlen : a.length = G.length + (F.length + R.length) := by
    rw [ha, List.length_append, List.length_append]
  have haG : ∀ i, i < G.length → a.getD i 0 = G.getD i 0 := fun i h => getD_append_left h
  have haF : ∀ j, G.length ≤ j → j < G.length + F.length →
      a.getD j 0 = F.getD (j - G.length) 0 := by
    intro j h1 h2
    rw [ha, getD_append_right h1, getD_append_left (by omega)]
  have haR : ∀ j, G.length + F.length ≤ j →
      a.getD j 0 = R.getD (j - (G.length + F.length)) 0 := by
    intro j h1
    rw [ha, getD_append_right (by omega), getD_append_right (by omega)]
    congr 1
    omega
  -- the zero scan finds the two seams first
  have hz : zSeams a = (G.length - 1) :: ((G.length + F.length - 1) ::
      zScan a (G.length + F.length + 1) (G.length + 1 + (1 + (a.length - 2) - (G.length + 1)) -
        (G.length + F.length + 1))) := by
    rw [zSeams]
    rw [zScan_peel a (a.length - 2) 1 G.length (by omega) (by omega)
      (by rw [haF G.length le_rfl (by omega)]; simpa using hFz)
      (by
        intro i h1 h2
        rw [haG i h2]
        have := tailPos_getD hGt i h1 h2
        omega)]
    rw [zScan_peel a _ (G.length + 1) (G.length + F.length) (by omega) (by omega)
      (by rw [haR _ le_rfl]; simpa using hRz)
      (by
        intro i h1 h2
        rw [haF i (by omega) h2]
        have := tailPos_getD hFt (i - G.length) (by omega) (by omega)
        omega)]
  have hz0 : zIdx a 0 = G.length - 1 := by rw [zIdx, hz]; rfl
  have hz1 : zIdx a 1 = G.length + F.length - 1 := by rw [zIdx, hz]; rfl
  rw [mergePass, hz0, hz1]
  have hs : G.length - 1 + 1 = G.length := by omega
  have hfuel : G.length + F.length - 1 - G.length = F.length - 1 := by omega
  rw [hs, hfuel]
  set b : List Int := bumpFrom a G.length (F.length - 1) with hb
  have hblen : b.length = a.length := bumpFrom_length a _ _
  have hbval : ∀ i, b.getD i 0 =
      if G.length ≤ i ∧ i < G.length + (F.length - 1) ∧ i < a.length
      then lastD G + a.getD (i + 1) 0 else a.getD i 0 := by
    intro i
    rw [hb, bumpFrom_getD (F.length - 1) a G.length (by omega) i]
    by_cases h : G.length ≤ i ∧ i < G.length + (F.length - 1) ∧ i < a.length
    · rw [if_pos h, if_pos h, haF G.length le_rfl (by omega)]
      have e0 : F.getD (G.length - G.length) 0 = 0 := by
        have : G.length - G.length = 0 := by omega
        rw [this]; exact hFz
      rw [e0, haG (G.length - 1) (by omega)]
      have : G.getD (G.length - 1) 0 = lastD G := rfl
      rw [this]
      ring
    · rw [if_neg h, if_neg h]
  -- compare elementwise with the merged target
  apply ext_getD
  · rw [shiftFrom_length, hblen, hlen, List.length_append, merge2_length,
      List.length_append]
    simp only [List.length_cons, List.length_nil]
    omega
  · intro i hi
    rw [shiftFrom_length, hblen] at hi
    rw [shiftFrom_getD _ b _ i, hblen]
    have hz2le : G.length + F.length - 1 ≤ a.length - 1 := by omega
    by_cases hcase1 : i < G.length
    · have hnot : ¬ (G.length + F.length - 1 ≤ i ∧
          i < G.length + F.length - 1 + (a.length - 1 - (G.length + F.length - 1)) ∧
          i < a.length) := by omega
      rw [if_neg hnot, hbval i, if_neg (by omega), haG i hcase1]
      rw [getD_append_left (by rw [merge2_length]; omega), merge2,
        getD_append_left hcase1]
    · by_cases hcase2 : i < G.length + (F.length - 1)
      · have hnot : ¬ (G.length + F.length - 1 ≤ i ∧
            i < G.length + F.length - 1 + (a.length - 1 - (G.length + F.length - 1)) ∧
            i < a.length) := by omega
        rw [if_neg hnot, hbval i, if_pos ⟨by omega, hcase2, by omega⟩,
          haF (i + 1) (by omega) (by omega)]
        rw [getD_append_left (by rw [merge2_length]; omega), merge2,
          getD_append_right (le_of_not_lt hcase1),
          getD_map _ (by rw [List.length_tail]; omega), tail_getD]
        congr 2
        omega
      · by_cases hcase3 : i < a.length - 1
        · have hyes : G.length + F.length - 1 ≤ i ∧
              i < G.length + F.length - 1 + (a.length - 1 - (G.length + F.length - 1)) ∧
              i < a.length := ⟨by omega, by omega, by omega⟩
          rw [if_pos hyes, hbval (i + 1), if_neg (by omega),
            haR (i + 1) (by omega)]
          rw [getD_append_right (by rw [merge2_length]; omega),
            getD_append_left (by rw [merge2_length]; omega)]
          congr 1
          rw [merge2_length]
          omega
        · have hieq : i = a.length - 1 := by omega
          have hnot : ¬ (G.length + F.length - 1 ≤ i ∧
              i < G.length + F.length - 1 + (a.length - 1 - (G.length + F.length - 1)) ∧
              i < a.length) := by omega
          rw [if_neg hnot, hbval i, if_neg (by omega), haR i (by omega)]
          rw [getD_append_right (by rw [merge2_length]; omega),
            getD_append_right (by rw [merge2_length]; omega)]
          have e1 : R.getD (i - (G.length + F.length)) 0 = lastD R := by
            rw [lastD]
            congr 1
            omega
          have e2 : i - (merge2 G F).length - R.length = 0 := by
            rw [merge2_length]
            omega
          rw [e1, e2]
          rfl

/-! ### The final pass merges the last fragment and bumps the junk tail -/

theorem lastPass_spec {G F J : List Int}
    (hG2 : 2 ≤ G.length) (hGt : ∀ x ∈ G.tail, 0 < x)
    (hF0 : F.headD 1 = 0) (hF2 : 2 ≤ F.length) :
    lastPass (G ++ (F ++ J)) =
      merge2 G F ++ ((J.map (fun x => lastD G + x)) ++ [lastD (G ++ (F ++ J))]) := by
  have hFz : F.getD 0 0 = 0 := (head0_getD hF0).1
  set a : List Int := G ++ (F ++ J) with ha
  have hlen : a.length = G.length + (F.length + J.length) := by
    rw [ha, List.length_append, List.length_append]
  have haG : ∀ i, i < G.length → a.getD i 0 = G.getD i 0 := fun i h => getD_append_left h
  have haF : ∀ j, G.length ≤ j → j < G.length + F.length →
      a.getD j 0 = F.getD (j - G.length) 0 := by
    intro j h1 h2
    rw [ha, getD_append_right h1, getD_append_left (by omega)]
  have haJ : ∀ j, G.length + F.length ≤ j →
      a.getD j 0 = J.getD (j - (G.length + F.length)) 0 := by
    intro j h1
    rw [ha, getD_append_right (by omega), getD_append_right (by omega)]
    congr 1
    omega
  have hz : zSeams a = (G.length - 1) ::
      zScan a (G.length + 1) (1 + (a.length - 2) - (G.length + 1)) := by
    rw [zSeams]
    rw [zScan_peel a (a.length - 2) 1 G.length (by omega) (by omega)
      (by rw [haF G.length le_rfl (by omega)]; simpa using hFz)
      (by
        intro i h1 h2
        rw [haG i h2]
        have := tailPos_getD hGt i h1 h2
        omega)]
  have hz0 : zIdx a 0 = G.length - 1 := by rw [zIdx, hz]; rfl
  rw [lastPass, hz0]
  have hs : G.length - 1 + 1 = G.length := by omega
  rw [hs]
  apply ext_getD
  · rw [bumpFrom_length, hlen, List.length_append, merge2_length, List.length_append,
      List.length_map]
    simp only [List.length_cons, List.length_nil]
    omega
  · intro i hi
    rw [bumpFrom_length] at hi
    rw [bumpFrom_getD _ a G.length (by omega) i]
    have hwin : G.length + (a.length - 1 - G.length) = a.length - 1 := by omega
    by_cases hcase1 : i < G.length
    · rw [if_neg (by omega), haG i hcase1]
      rw [getD_append_left (by rw [merge2_length]; omega), merge2,
        getD_append_left hcase1]
    · by_cases hcase4 : i = a.length - 1
      · rw [if_neg (by omega)]
        have h1 : (merge2 G F).length ≤ i := by rw [merge2_length]; omega
        have h2 : (J.map (fun x => lastD G + x)).length ≤ i - (merge2 G F).length := by
          rw [List.length_map, merge2_length]
          omega
        conv_rhs => rw [getD_append_right h1, getD_append_right h2]
        have e2 : i - (merge2 G F).length - (J.map (fun x => lastD G + x)).length = 0 := by
          rw [List.length_map, merge2_length]
          omega
        rw [e2]
        have e3 : ([lastD a] : List Int).getD 0 0 = a.getD (a.length - 1) 0 := rfl
        rw [e3, hcase4]
      · have hin : G.length ≤ i ∧ i < G.length + (a.length - 1 - G.length) ∧ i < a.length :=
          ⟨by omega, by omega, by omega⟩
        rw [if_pos hin, haF G.length le_rfl (by omega)]
        have e0 : F.getD (G.length - G.length) 0 = 0 := by
          have : G.length - G.length = 0 := by omega
          rw [this]; exact hFz
        rw [e0, haG (G.length - 1) (by omega)]
        have eG : G.getD (G.length - 1) 0 = lastD G := rfl
        rw [eG]
        by_cases hcase2 : i < G.length + (F.length - 1)
        · rw [haF (i + 1) (by omega) (by omega)]
          rw [getD_append_left (by rw [merge2_length]; omega), merge2,
            getD_append_right (le_of_not_lt hcase1),
            getD_map _ (by rw [List.length_tail]; omega), tail_getD]
          have : lastD G - 0 + F.getD (i + 1 - G.length) 0 =
              lastD G + F.getD (i - G.length + 1) 0 := by
            have e : i + 1 - G.length = i - G.length + 1 := by omega
            rw [e]
            ring
          exact this
        · rw [haJ (i + 1) (by omega)]
          rw [getD_append_right (by rw [merge2_length]; omega),
            getD_append_left (by rw [List.length_map, merge2_length]; omega),
            getD_map _ (by rw [merge2_length]; omega)]
          have e : i + 1 - (G.length + F.length) = i - (merge2 G F).length := by
            rw [merge2_length]
            omega
          rw [e]
          ring

/-! ### Iterating the while loop over all fragments -/

theorem headD_append_of_ne_nil {X Y : List Int} {d : Int} (h : X ≠ []) :
    (X ++ Y).headD d = X.headD d := by
  cases X with
  | nil => exact absurd rfl h
  | cons x xs => rfl

theorem goodFrag_ne_nil {F : List Int} (h : GoodFrag F) : F ≠ [] := by
  intro he
  rw [he] at h
  simp [GoodFrag] at h

theorem lastD_append_of_ne_nil {X Y : List Int} (h : Y ≠ []) :
    lastD (X ++ Y) = lastD Y := by
  have h1 : 1 ≤ Y.length := List.length_pos.mpr h
  rw [lastD, lastD, List.length_append, getD_append_right (by omega)]
  congr 1
  omega

theorem lastD_junk (Fk : List Int) (t : Nat) :
    lastD (Fk ++ List.replicate t (lastD Fk)) = lastD Fk := by
  cases t with
  | zero => simp
  | succ t =>
    rw [lastD_append_of_ne_nil (by simp), lastD, List.length_replicate]
    exact getD_replicate (by omega)

theorem head0_flatten_chain {rest : List (List Int)} {Fk X : List Int}
    (hrest : ∀ F ∈ rest, GoodFrag F) (hFk : GoodFrag Fk) :
    (rest.flatten ++ (Fk ++ X)).headD 1 = 0 := by
  cases rest with
  | nil =>
    simp only [List.flatten_nil, List.nil_append]
    rw [headD_append_of_ne_nil (goodFrag_ne_nil hFk)]
    exact hFk.2.1
  | cons F rest2 =>
    have hF : GoodFrag F := hrest F (by simp)
    rw [List.flatten_cons, List.append_assoc,
      headD_append_of_ne_nil (goodFrag_ne_nil hF)]
    exact hF.2.1

theorem passes_spec (Fs : List (List Int)) :
    ∀ (G Fk : List Int) (t : Nat), GoodFrag G → (∀ F ∈ Fs, GoodFrag F) → GoodFrag Fk →
      mergePass^[Fs.length] (G ++ (Fs.flatten ++ (Fk ++ List.replicate t (lastD Fk)))) =
        (Fs.foldl merge2 G) ++ (Fk ++ List.replicate (t + Fs.length) (lastD Fk)) := by
  induction Fs with
  | nil =>
    intro G Fk t _ _ _
    simp
  | cons F rest ih =>
    intro G Fk t hG hall hFk
    have hF : GoodFrag F := hall F (by simp)
    have hrest : ∀ F2 ∈ rest, GoodFrag F2 := fun F2 h2 => hall F2 (by simp [h2])
    rw [List.length_cons, Function.iterate_succ_apply]
    set R : List Int := rest.flatten ++ (Fk ++ List.replicate t (lastD Fk)) with hR
    have e1 : (F :: rest).flatten ++ (Fk ++ List.replicate t (lastD Fk)) = F ++ R := by
      rw [hR, List.flatten_cons, List.append_assoc]
    rw [e1]
    have hR2 : 2 ≤ R.length := by
      rw [hR, List.length_append, List.length_append]
      have := hFk.1
      omega
    have hR0 : R.headD 1 = 0 := head0_flatten_chain hrest hFk
    rw [mergePass_spec hG.1 hG.2.2.1 hF.2.1 hF.2.2.1 hR2 hR0]
    have e2 : lastD R = lastD Fk := by
      rw [hR, lastD_append_of_ne_nil (by
        intro he
        have := hFk.1
        rw [List.append_eq_nil] at he
        rw [he.1] at this
        simp at this), lastD_junk]
    have e3 : R ++ [lastD R] =
        rest.flatten ++ (Fk ++ List.replicate (t + 1) (lastD Fk)) := by
      rw [e2, hR, List.append_assoc, List.append_assoc]
      congr 2
      rw [List.replicate_succ']
    rw [e3, ih (merge2 G F) Fk (t + 1) (merge2_good hG hF) hrest hFk, List.foldl_cons]
    congr 3
    omega

/-! ### Properties of the fold of `merge2` -/

theorem foldl_merge2_good (rest : List (List Int)) :
    ∀ (G : List Int), GoodFrag G → (∀ F ∈ rest, GoodFrag F) →
      GoodFrag (rest.foldl merge2 G) := by
  induction rest with
  | nil => intro G hG _; exact hG
  | cons F rest ih =>
    intro G hG h
    exact ih _ (merge2_good hG (h F (by simp))) (fun F2 h2 => h F2 (by simp [h2]))

theorem foldl_merge2_length (rest : List (List Int)) :
    ∀ (G : List Int), (∀ F ∈ rest, 1 ≤ F.length) →
      (rest.foldl merge2 G).length + rest.length =
        G.length + (rest.map List.length).sum := by
  induction rest with
  | nil => intro G _; simp
  | cons F rest ih =>
    intro G h
    have hF : 1 ≤ F.length := h F (by simp)
    have := ih (merge2 G F) (fun F2 h2 => h F2 (by simp [h2]))
    rw [List.foldl_cons, List.length_cons, List.map_cons, List.sum_cons,
      merge2_length] at *
    omega

theorem foldl_merge2_lastD (rest : List (List Int)) :
    ∀ (G : List Int), (∀ F ∈ rest, 2 ≤ F.length) →
      lastD (rest.foldl merge2 G) = lastD G + (rest.map lastD).sum := by
  induction rest with
  | nil => intro G _; simp
  | cons F rest ih =>
    intro G h
    rw [List.foldl_cons, ih (merge2 G F) (fun F2 h2 => h F2 (by simp [h2])),
      lastD_merge2 (h F (by simp)), List.map_cons, List.sum_cons]
    ring

theorem sum_lengths_ge (Fs : List (List Int)) (h : ∀ F ∈ Fs, 2 ≤ F.length) :
    2 * Fs.length ≤ (Fs.map List.length).sum := by
  induction Fs with
  | nil => simp
  | cons F rest ih =>
    rw [List.map_cons, List.sum_cons, List.length_cons]
    have h1 := h F (by simp)
    have h2 := ih (fun F2 h2 => h F2 (by simp [h2]))
    omega

/-- A single well-formed fragment passes through `lastPass` unchanged (the zero
scan finds nothing, so the final bump window is empty). -/
theorem lastPass_single {F : List Int} (h : GoodFrag F) : lastPass F = F := by
  have hz : zSeams F = [] := by
    rw [zSeams]
    apply zScan_nil
    intro i h1 h2
    have := tailPos_getD h.2.2.1 i h1 (by omega)
    omega
  rw [lastPass, zIdx, hz]
  have e : (([] : List Nat)).getD 0 (F.length - 1) = F.length - 1 := rfl
  rw [e]
  have h2 := h.1
  have e2 : F.length - 1 - (F.length - 1 + 1) = 0 := by omega
  rw [e2]
  rfl

theorem mergeAll_good {Fs : List (List Int)} (h1 : Fs ≠ [])
    (hgood : ∀ F ∈ Fs, GoodFrag F) : GoodFrag (mergeAll Fs) := by
  cases Fs with
  | nil => exact absurd rfl h1
  | cons F rest =>
    exact foldl_merge2_good rest F (hgood F (by simp))
      (fun F2 h2 => hgood F2 (by simp [h2]))

theorem mergeAll_lastD {Fs : List (List Int)} (h1 : Fs ≠ [])
    (hgood : ∀ F ∈ Fs, GoodFrag F) : lastD (mergeAll Fs) = (Fs.map lastD).sum := by
  cases Fs with
  | nil => exact absurd rfl h1
  | cons F rest =>
    rw [mergeAll, foldl_merge2_lastD rest F (fun F2 h2 => (hgood F2 (by simp [h2])).1),
      List.map_cons, List.sum_cons]

/-- Structure of the full merge: the repaired array is the specification merge
followed by leftover junk, and the merged part has length
`sum len_i - (k - 1)`. -/
theorem mergeRowPtr_eq (Fs : List (List Int)) (h1 : 1 ≤ Fs.length)
    (hgood : ∀ F ∈ Fs, GoodFrag F) :
    ∃ X : List Int, mergeRowPtr Fs.length Fs.flatten = mergeAll Fs ++ X ∧
      (mergeAll Fs).length + (Fs.length - 1) = Fs.flatten.length := by
  cases Fs with
  | nil => simp at h1
  | cons F1 rest =>
    have hF1 : GoodFrag F1 := hgood F1 (by simp)
    rcases List.eq_nil_or_concat rest with hrest | ⟨mid, Fk, hrest⟩
    · subst hrest
      refine ⟨[], ?_, ?_⟩
      · rw [mergeRowPtr]
        have e0 : ([F1] : List (List Int)).length - 2 = 0 := by simp
        rw [e0]
        have e1 : ([F1] : List (List Int)).flatten = F1 := by simp
        rw [e1, Function.iterate_zero_apply, lastPass_single hF1, mergeAll,
          List.foldl_nil, List.append_nil]
      · simp [mergeAll]
    · subst hrest
      rw [List.concat_eq_append]
      have hFk : GoodFrag Fk := hgood Fk (by simp)
      have hmid : ∀ F ∈ mid, GoodFrag F := fun F h => hgood F (by simp [h])
      have hk : (F1 :: (mid ++ [Fk])).length = mid.length + 2 := by simp
      have e1 : (F1 :: (mid ++ [Fk])).flatten =
          F1 ++ (mid.flatten ++ (Fk ++ List.replicate 0 (lastD Fk))) := by
        simp
      rw [mergeRowPtr, hk, e1]
      have e2 : mid.length + 2 - 2 = mid.length := by omega
      rw [e2, passes_spec mid F1 Fk 0 hF1 hmid hFk]
      set G2 : List Int := mid.foldl merge2 F1 with hG2
      have hG2g : GoodFrag G2 := foldl_merge2_good mid F1 hF1 hmid
      have e3 : (0 + mid.length) = mid.length := by omega
      rw [e3, lastPass_spec hG2g.1 hG2g.2.2.1 hFk.2.1 hFk.1]
      have e4 : mergeAll (F1 :: (mid ++ [Fk])) = merge2 G2 Fk := by
        rw [mergeAll, List.foldl_append, List.foldl_cons, List.foldl_nil]
      refine ⟨(List.replicate mid.length (lastD Fk)).map (fun x => lastD G2 + x) ++
          [lastD (G2 ++ (Fk ++ List.replicate mid.length (lastD Fk)))], ?_, ?_⟩
      · rw [e4]
      · rw [e4, merge2_length]
        have hGlen := foldl_merge2_length mid F1 (fun F h => by
          have := (hmid F h).1
          omega)
        rw [← hG2] at hGlen
        have hn : (F1 ++ (mid.flatten ++ (Fk ++ List.replicate 0 (lastD Fk)))).length =
            F1.length + ((mid.map List.length).sum + Fk.length) := by
          simp [List.length_flatten]
        rw [hn]
        have h2 := hFk.1
        omega

/-- C1 (amended): for `k ≥ 1` fragments that are monotone non-decreasing,
start at 0, have at least one row each and whose entries after the first are
strictly positive (no empty leading rows), the leader-side merge of `setA`
produces a row pointer whose first `sum len_i - (k-1)` entries are monotone
non-decreasing, whose merged length is `sum len_i - (k-1)`, and whose
`local_nnz` (the entry the code reads at `Size - devWorldSize`) is the sum of
the fragments' final values. -/
theorem C1_merge_spec (Fs : List (List Int)) (h1 : 1 ≤ Fs.length)
    (hgood : ∀ F ∈ Fs, GoodFrag F) :
    List.Sorted (· ≤ ·)
      ((mergeRowPtr Fs.length Fs.flatten).take (Fs.flatten.length - (Fs.length - 1))) ∧
    ((mergeRowPtr Fs.length Fs.flatten).take
        (Fs.flatten.length - (Fs.length - 1))).length =
      (Fs.map List.length).sum - (Fs.length - 1) ∧
    setA_local_nnz Fs.length Fs.flatten = (Fs.map lastD).sum := by
  obtain ⟨X, hX, hlen⟩ := mergeRowPtr_eq Fs h1 hgood
  have hne : Fs ≠ [] := by
    intro h
    rw [h] at h1
    simp at h1
  have hMg : GoodFrag (mergeAll Fs) := mergeAll_good hne hgood
  have hMlen : (mergeAll Fs).length = Fs.flatten.length - (Fs.length - 1) := by omega
  have htake : (mergeRowPtr Fs.length Fs.flatten).take
      (Fs.flatten.length - (Fs.length - 1)) = mergeAll Fs := by
    rw [hX, ← hMlen, List.take_left]
  refine ⟨?_, ?_, ?_⟩
  · rw [htake]
    exact hMg.2.2.2
  · rw [htake, hMlen, List.length_flatten]
  · rw [setA_local_nnz, hX]
    have h2 := hMg.1
    have hidx : Fs.flatten.length - Fs.length < (mergeAll Fs).length := by omega
    rw [getD_append_left hidx, ← mergeAll_lastD hne hgood, lastD]
    congr 1
    omega

theorem div_eq_iff_range {b r d : Nat} (hb : 0 < b) :
    r / b = d ↔ d * b ≤ r ∧ r < d * b + b := by
  constructor
  · rintro rfl
    have h1 := Nat.div_add_mod r b
    have h2 := Nat.mod_lt r hb
    have hmc : (r / b) * b = b * (r / b) := Nat.mul_comm _ _
    omega
  · rintro ⟨h1, h2⟩
    exact Nat.div_eq_of_lt_le h1 (by rw [Nat.add_mul, Nat.one_mul]; omega)

/-- C2: with `1 ≤ D ≤ P` devices, every node-local rank `r < P` is assigned a
device id below `D`; rank `r` is in device `d`'s group exactly when `r` lies in
the `d`-th contiguous block (the first `P % D` blocks of size `P / D + 1`, the
rest of size `P / D`); and `r` is a leader exactly when it is the first rank of
its block. -/
theorem C2_setDeviceIDs_spec (P D r : Nat) (hD : 1 ≤ D) (hDP : D ≤ P) (hr : r < P) :
    (setDeviceIDs P D r).1 < D ∧
    (∀ d, d < D →
      ((setDeviceIDs P D r).1 = d ↔
        d * (P / D) + min d (P % D) ≤ r ∧
        r < d * (P / D) + min d (P % D) + (P / D + if d < P % D then 1 else 0))) ∧
    ((setDeviceIDs P D r).2 = true ↔
      r = (setDeviceIDs P D r).1 * (P / D) +
        min ((setDeviceIDs P D r).1) (P % D)) := by
  by_cases hEq : D = P
  · have hP1 : P / D = 1 := by rw [hEq]; exact Nat.div_self (by omega)
    have hP0 : P % D = 0 := by rw [hEq]; exact Nat.mod_self P
    rw [setDeviceIDs, if_pos hEq]
    refine ⟨by omega, ?_, ?_⟩
    · intro d hd
      rw [hP1, hP0]
      simp only [Nat.mul_one, Nat.min_zero, Nat.add_zero]
      have : ¬ (d < 0) := by omega
      rw [if_neg this]
      omega
    · rw [hP1, hP0]
      simp
  · have hlt : D < P := by omega
    have hb1 : 1 ≤ P / D := (Nat.one_le_div_iff (by omega)).mpr hDP
    have hm : P % D < D := Nat.mod_lt P (by omega)
    have hPD := Nat.div_add_mod P D
    rw [setDeviceIDs, if_neg hEq, if_neg (by omega)]
    set b : Nat := P / D with hbdef
    set m : Nat := P % D with hmdef
    by_cases hcase : r < (b + 1) * m
    · rw [if_pos hcase]
      simp only [beq_iff_eq]
      have hq : r / (b + 1) < m := by
        rw [Nat.div_lt_iff_lt_mul (by omega)]
        have := Nat.mul_comm (b + 1) m
        omega
      refine ⟨by omega, ?_, ?_⟩
      · intro d hd
        by_cases hdm : d < m
        · rw [min_eq_left (by omega), if_pos hdm]
          have hiff := div_eq_iff_range (b := b + 1) (r := r) (d := d) (by omega)
          have hexp : d * (b + 1) = d * b + d := by ring
          rw [hexp] at hiff
          rw [hiff]
        · rw [min_eq_right (by omega), if_neg hdm]
          have h1 : (b + 1) * m = b * m + m := by ring
          have h2 : b * m ≤ b * d := Nat.mul_le_mul_left b (by omega)
          have h3 : b * d = d * b := Nat.mul_comm b d
          omega
      · rw [min_eq_left (by omega)]
        have hdm := Nat.div_add_mod r (b + 1)
        have hc : (r / (b + 1)) * b + r / (b + 1) = (b + 1) * (r / (b + 1)) := by ring
        omega
    · rw [if_neg hcase]
      simp only [beq_iff_eq]
      have hrge : (b + 1) * m ≤ r := by omega
      set r2 : Nat := r - (b + 1) * m with hr2def
      have hbm : b * (D - m) + b * m = b * D := by
        rw [← Nat.mul_add]
        congr 1
        omega
      have hDb : D * b = b * D := Nat.mul_comm D b
      have hm1 : (b + 1) * m = b * m + m := by ring
      have hq2 : r2 / b < D - m := by
        rw [Nat.div_lt_iff_lt_mul (by omega)]
        have : (D - m) * b = b * (D - m) := Nat.mul_comm _ _
        omega
      refine ⟨by omega, ?_, ?_⟩
      · intro d hd
        by_cases hdm : d < m
        · rw [min_eq_left (by omega), if_pos hdm]
          constructor
          · intro h
            exfalso
            have hle : m ≤ r2 / b + m := Nat.le_add_left m (r2 / b)
            omega
          · rintro ⟨ha1, ha2⟩
            exfalso
            have h1 : (b + 1) * (d + 1) ≤ (b + 1) * m := Nat.mul_le_mul_left _ (by omega)
            have h2 : (b + 1) * (d + 1) = d * b + d + (b + 1) := by ring
            omega
        · rw [min_eq_right (by omega), if_neg hdm]
          have hiff := div_eq_iff_range (b := b) (r := r2) (d := d - m) (by omega)
          have hsub : (d - m) * b = d * b - m * b := Nat.sub_mul d m b
          have hmb : m * b ≤ d * b := Nat.mul_le_mul_right b (by omega)
          have hmb2 : m * b = b * m := Nat.mul_comm m b
          constructor
          · intro h
            have hq2d : r2 / b = d - m := by omega
            have := hiff.mp hq2d
            omega
          · rintro ⟨ha1, ha2⟩
            have hbnds : (d - m) * b ≤ r2 ∧ r2 < (d - m) * b + b := by omega
            have := hiff.mpr hbnds
            omega
      · rw [min_eq_right (Nat.le_add_left m _)]
        have hdm2 := Nat.div_add_mod r2 b
        have hadd : (r2 / b + m) * b = (r2 / b) * b + m * b := Nat.add_mul _ _ _
        have hc : (r2 / b) * b = b * (r2 / b) := Nat.mul_comm _ _
        have hmb2 : m * b = b * m := Nat.mul_comm m b
        omega

theorem head?_scanl (b : Int) (l : List Int) :
    (List.scanl (· + ·) b l).head? = some b := by
  cases l with
  | nil => rfl
  | cons c cs => rfl

theorem fixupFrom_spec (rest : List Int) :
    ∀ (pre : List Int), pre ≠ [] →
      fixupFrom (pre ++ rest) pre.length rest.length =
        pre ++ (List.scanl (· + ·) (lastD pre) rest).tail := by
  induction rest with
  | nil =>
    intro pre _
    rw [List.length_nil, fixupFrom, List.scanl_nil]
    rfl
  | cons r rs ih =>
    intro pre hpre
    have hp1 : 1 ≤ pre.length := List.length_pos.mpr hpre
    rw [List.length_cons, fixupFrom]
    have e1 : (pre ++ r :: rs).getD pre.length 0 = r := by
      rw [getD_append_right le_rfl]
      simp
    have e2 : (pre ++ r :: rs).getD (pre.length - 1) 0 = lastD pre := by
      rw [getD_append_left (by omega)]
      rw [lastD]
    rw [e1, e2]
    have e3 : (pre ++ r :: rs).set pre.length (r + lastD pre) =
        (pre ++ [r + lastD pre]) ++ rs := by
      rw [List.set_append, if_neg (by omega)]
      have : pre.length - pre.length = 0 := by omega
      rw [this]
      simp
    rw [e3]
    have e4 : pre.length + 1 = (pre ++ [r + lastD pre]).length := by
      simp
    rw [e4, ih (pre ++ [r + lastD pre]) (by simp)]
    rw [List.scanl_cons]
    have e5 : lastD (pre ++ [r + lastD pre]) = r + lastD pre :=
      lastD_append_of_ne_nil (by simp)
    rw [e5, List.append_assoc]
    have e6 : lastD pre + r = r + lastD pre := by ring
    rw [e6]
    cases rs with
    | nil => rfl
    | cons x xs => rfl

theorem buildRowPart_eq_scanl (counts : List Int) :
    buildRowPart counts = List.scanl (· + ·) 0 counts := by
  have h := fixupFrom_spec counts [0] (by simp)
  simp only [List.length_cons, List.length_nil, List.singleton_append] at h
  rw [buildRowPart, h]
  cases counts with
  | nil => rfl
  | cons c cs =>
    rw [List.scanl_cons, List.scanl_cons]
    have : lastD [0] = 0 := rfl
    rw [this]
    rfl

theorem scanl_chain (l : List Int) :
    ∀ (b : Int), (∀ x ∈ l, 0 ≤ x) → List.Chain' (· ≤ ·) (List.scanl (· + ·) b l) := by
  induction l with
  | nil =>
    intro b _
    rw [List.scanl_nil]
    exact List.chain'_singleton b
  | cons c cs ih =>
    intro b h
    rw [List.scanl_cons, List.singleton_append, List.chain'_cons']
    refine ⟨?_, ih (b + c) (fun x hx => h x (by simp [hx]))⟩
    intro y hy
    rw [head?_scanl] at hy
    have hc : 0 ≤ c := h c (by simp)
    have heq : b + c = y := by simpa using hy
    omega

theorem scanl_lastD (l : List Int) :
    ∀ (b : Int), lastD (List.scanl (· + ·) b l) = b + l.sum := by
  induction l with
  | nil => intro b; simp [List.scanl_nil, lastD]
  | cons c cs ih =>
    intro b
    rw [List.scanl_cons, List.singleton_append]
    have hne : List.scanl (· + ·) (b + c) cs ≠ [] := by
      cases cs <;> simp [List.scanl]
    have : lastD (b :: List.scanl (· + ·) (b + c) cs) =
        lastD (List.scanl (· + ·) (b + c) cs) := by
      have e : b :: List.scanl (· + ·) (b + c) cs =
          [b] ++ List.scanl (· + ·) (b + c) cs := rfl
      rw [e, lastD_append_of_ne_nil hne]
    rw [this, ih (b + c), List.sum_cons]
    ring

/-- C4: the row partition table built from the gathered per-leader row counts
is the prefix sum with a leading zero: monotone non-decreasing, first entry 0,
last entry the total row count. -/
theorem C4_rowPart_spec (counts : List Int) (h : ∀ c ∈ counts, 0 ≤ c) :
    List.Sorted (· ≤ ·) (buildRowPart counts) ∧
    (buildRowPart counts).headD 1 = 0 ∧
    lastD (buildRowPart counts) = counts.sum := by
  rw [buildRowPart_eq_scanl]
  refine ⟨?_, ?_, ?_⟩
  · rw [List.Sorted, ← List.chain'_iff_pairwise]
    exact scanl_chain counts 0 h
  · cases counts with
    | nil => rfl
    | cons c cs => rfl
  · rw [scanl_lastD]
    ring

/-- C4 witness: the scenario row counts `[7,5,9]` yield `[0,7,12,21]`, and the
general theorem instantiates there. -/
theorem C4_rowPart_witness :
    (buildRowPart [7, 5, 9] = [0, 7, 12, 21]) ∧
    (List.Sorted (· ≤ ·) (buildRowPart [7, 5, 9]) ∧
     (buildRowPart [7, 5, 9]).headD 1 = 0 ∧
     lastD (buildRowPart [7, 5, 9]) = ([7, 5, 9] : List Int).sum) :=
  ⟨by decide, C4_rowPart_spec [7, 5, 9] (by decide)⟩

theorem writeSeg_length {α : Type} (buf seg : List α) (off : Nat)
    (h : off + seg.length ≤ buf.length) : (writeSeg buf off seg).length = buf.length := by
  rw [writeSeg, List.length_append, List.length_append, List.length_take,
    List.length_drop]
  omega

theorem scanl_nat_shift (cs : List Nat) :
    ∀ a b : Nat, List.scanl (· + ·) (a + b) cs =
      (List.scanl (· + ·) b cs).map (fun x => a + x) := by
  induction cs with
  | nil => intro a b; rfl
  | cons c cs ih =>
    intro a b
    rw [List.scanl_cons, List.scanl_cons]
    have e : a + b + c = a + (b + c) := by omega
    rw [e, ih a (b + c)]
    rfl

theorem adispOf_cons (c : Nat) (cs : List Nat) :
    adispOf (c :: cs) = 0 :: (adispOf cs).map (fun x => c + x) := by
  rw [adispOf, adispOf, List.scanl_cons, List.length_cons]
  have e : (0 : Nat) + c = c + 0 := by omega
  rw [e, scanl_nat_shift cs c 0, List.singleton_append, List.take_succ_cons,
    List.map_take]

theorem adispOf_length (cs : List Nat) : (adispOf cs).length = cs.length := by
  rw [adispOf, List.length_take, List.length_scanl]
  omega

theorem gather_fold {α : Type} (xs : List (List α)) :
    ∀ (buf : List α) (off : Nat),
      off + (xs.map List.length).sum ≤ buf.length →
      (List.zip ((adispOf (apartOf xs)).map (fun d => off + d)) xs).foldl
          (fun b p => writeSeg b p.1 p.2) buf
        = buf.take off ++ xs.flatten ++ buf.drop (off + (xs.map List.length).sum) := by
  induction xs with
  | nil =>
    intro buf off _
    simp only [apartOf, List.map_nil, List.sum_nil, List.flatten_nil,
      List.append_nil, Nat.add_zero]
    rw [adispOf]
    simp only [List.take_zero, List.map_nil, List.zip_nil_left, List.foldl_nil,
      List.length_nil]
    exact (List.take_append_drop off buf).symm
  | cons x xs ih =>
    intro buf off hlen
    have hsum : ((x :: xs).map List.length).sum =
        x.length + (xs.map List.length).sum := by
      rw [List.map_cons, List.sum_cons]
    have hx : off + x.length ≤ buf.length := by
      rw [hsum] at hlen
      omega
    have e1 : apartOf (x :: xs) = x.length :: apartOf xs := by
      rw [apartOf, List.map_cons, apartOf]
    rw [e1, adispOf_cons, List.map_cons]
    have e2 : (((adispOf (apartOf xs)).map (fun d => x.length + d)).map
        (fun d => off + d)) = (adispOf (apartOf xs)).map
          (fun d => (off + x.length) + d) := by
      rw [List.map_map]
      congr 1
      funext d
      simp only [Function.comp_apply]
      omega
    rw [e2, List.zip_cons_cons, List.foldl_cons]
    set b1 : List α := writeSeg buf off x with hb1
    have hb1len : b1.length = buf.length := writeSeg_length buf x off hx
    have hih := ih b1 (off + x.length) (by
      rw [hb1len]
      rw [hsum] at hlen
      omega)
    have estep : writeSeg buf (off + 0, x).1 (off + 0, x).2 = b1 := hb1.symm
    have hto : (buf.take off ++ x).length = off + x.length := by
      rw [List.length_append, List.length_take]
      omega
    have e3 : b1.take (off + x.length) = buf.take off ++ x := by
      rw [hb1, writeSeg]
      exact List.take_left' hto
    have e4 : b1.drop (off + x.length) = buf.drop (off + x.length) := by
      rw [hb1, writeSeg]
      exact List.drop_left' hto
    have e5 : b1.drop (off + x.length + (xs.map List.length).sum)
        = buf.drop (off + x.length + (xs.map List.length).sum) := by
      rw [← List.drop_drop, e4, List.drop_drop]
    rw [estep, hih, e3, e5, List.flatten_cons, hsum, Nat.add_assoc,
      List.append_assoc (List.take off buf) x xs.flatten]

theorem gatherArray_eq_flatten {α : Type} (xs : List (List α)) (buf : List α)
    (hbuf : buf.length = (xs.map List.length).sum) :
    gatherArray xs buf = xs.flatten := by
  have hmap : (adispOf (apartOf xs)).map (fun d => 0 + d) = adispOf (apartOf xs) := by
    have he : (fun d : Nat => 0 + d) = id := by
      funext d
      simp
    rw [he, List.map_id]
  have h := gather_fold xs buf 0 (by omega)
  rw [hmap] at h
  rw [gatherArray, h]
  simp only [List.take_zero, List.nil_append, Nat.zero_add]
  rw [← hbuf, List.drop_length, List.append_nil]

theorem getD_map_nat (c : Nat) (l : List Nat) (i : Nat) (h : i < l.length) :
    (l.map (fun x => c + x)).getD i 0 = c + l.getD i 0 := by
  rw [List.getD_eq_getElem _ _ (by simpa using h), List.getD_eq_getElem _ _ h,
    List.getElem_map]

theorem scatter_segment {α : Type} (xs : List (List α)) :
    ∀ r, r < xs.length →
      scatterArray xs.flatten (apartOf xs) (adispOf (apartOf xs)) r = xs.getD r [] := by
  induction xs with
  | nil => intro r hr; simp at hr
  | cons x xs ih =>
    intro r hr
    have e1 : apartOf (x :: xs) = x.length :: apartOf xs := by
      rw [apartOf, List.map_cons, apartOf]
    rw [e1, adispOf_cons]
    cases r with
    | zero =>
      rw [scatterArray]
      simp only [List.getD_cons_zero, List.drop_zero, List.flatten_cons]
      rw [List.take_left]
    | succ r =>
      rw [scatterArray]
      simp only [List.getD_cons_succ]
      have hlt : r < (adispOf (apartOf xs)).length := by
        rw [adispOf_length]
        rw [apartOf, List.length_map]
        simpa using hr
      rw [getD_map_nat _ _ _ hlt, List.flatten_cons]
      have e2 : x.length + (adispOf (apartOf xs)).getD r 0 =
          x.length + (adispOf (apartOf xs)).getD r 0 := rfl
      rw [← List.drop_drop, List.drop_left]
      have := ih r (by simpa using hr)
      rw [scatterArray] at this
      rw [this]

/-- C6: gathering per-rank arrays with `GatherArray`'s descriptor and then
scattering the flat buffer back with `ScatterArray` using the same descriptor
returns every rank's original sub-array. -/
theorem C6_gather_scatter_roundtrip {α : Type} (xs : List (List α)) (buf : List α)
    (hbuf : buf.length = (xs.map List.length).sum) :
    ∀ r, r < xs.length →
      scatterArray (gatherArray xs buf) (apartOf xs) (adispOf (apartOf xs)) r
        = xs.getD r [] := by
  intro r hr
  rw [gatherArray_eq_flatten xs buf hbuf]
  exact scatter_segment xs r hr

/-- C6 witness: a concrete three-rank round trip. -/
theorem C6_roundtrip_witness :
    scatterArray (gatherArray ([[1, 2], [3], [4, 5, 6]] : List (List Int))
        (List.replicate 6 0))
      (apartOf [[1, 2], [3], [4, 5, 6]])
      (adispOf (apartOf ([[1, 2], [3], [4, 5, 6]] : List (List Int)))) 1
      = ([[1, 2], [3], [4, 5, 6]] : List (List Int)).getD 1 [] :=
  C6_gather_scatter_roundtrip [[1, 2], [3], [4, 5, 6]] (List.replicate 6 0)
    (by decide) 1 (by decide)

/-- C3: calling `finalize` on a never-initialized instance prints the
diagnostic but is not a no-op: the three communicators are still freed and
the counter of live instances still decremented (the early return present in
the upstream AmgXWrapper is missing). -/
theorem C3_finalize_uninit_not_noop :
    (finalize ⟨false, MPI_UNDEFINED, 0⟩).2 =
      [FinalizeAction.reportNotInitialized, FinalizeAction.freeGlobalCpuWorld,
       FinalizeAction.freeLocalCpuWorld, FinalizeAction.freeDevWorld] ∧
    (finalize ⟨false, MPI_UNDEFINED, 0⟩).1.count = -1 := by decide

/-- C7 counterexample: on an initialized leader instance, `finalize` does not
free the solve-participant communicator `gpuWorld` (the call is commented
out), so not all four communicators are released. -/
theorem C7_gpuWorld_not_freed :
    FinalizeAction.freeGpuWorld ∉ (finalize ⟨true, 0, 2⟩).2 := by decide

/-- C7 (amended): teardown frees the global, node-local and device-group
communicators — but never `gpuWorld` — and resets `gpuProc` and
`isInitialized` so the object can be reused. -/
theorem C7_finalize_teardown (s : SolverInst) :
    FinalizeAction.freeGlobalCpuWorld ∈ (finalize s).2 ∧
    FinalizeAction.freeLocalCpuWorld ∈ (finalize s).2 ∧
    FinalizeAction.freeDevWorld ∈ (finalize s).2 ∧
    FinalizeAction.freeGpuWorld ∉ (finalize s).2 ∧
    (finalize s).1.gpuProc = MPI_UNDEFINED ∧
    (finalize s).1.isInitialized = false := by
  rw [finalize]
  refine ⟨?_, ?_, ?_, ?_, rfl, rfl⟩ <;>
    simp only [List.mem_append, List.mem_cons, List.mem_singleton] <;>
    split_ifs <;> simp_all

/-- C8: the row-pointer merge modifies only `all_I`; the gathered column array
`all_J` and value array `all_A` are unchanged between the gathers and the
upload. -/
theorem C8_merge_touches_only_rowptr {α : Type} (k : Nat) (nDevRows : Int)
    (s : LeaderBlockState α) :
    (setA_leaderMerge k nDevRows s).all_J = s.all_J ∧
    (setA_leaderMerge k nDevRows s).all_A = s.all_A :=
  ⟨rfl, rfl⟩

/-- C9: a non-success engine status is reported, execution continues (no
abort), the download still happens, and the scattered result is exactly the
one the success path would produce. -/
theorem C9_solve_failure_reported {α : Type} (engine : List α → List α → List α)
    (status : Int) (xs bs : List (List α)) (bufX bufB : List α)
    (h : status ≠ AMGX_SOLVE_SUCCESS) :
    SolveAction.reportFailure ∈ (solve engine status xs bs bufX bufB).2.2 ∧
    SolveAction.abortRun ∉ (solve engine status xs bs bufX bufB).2.2 ∧
    SolveAction.downloadP ∈ (solve engine status xs bs bufX bufB).2.2 ∧
    (solve engine status xs bs bufX bufB).1 =
      (solve engine AMGX_SOLVE_SUCCESS xs bs bufX bufB).1 := by
  refine ⟨?_, ?_, ?_, rfl⟩ <;>
    simp [solve, h]

/-- C9 witness: a concrete failing solve on two ranks. -/
theorem C9_solve_witness :
    (1 : Int) ≠ AMGX_SOLVE_SUCCESS ∧
    (SolveAction.reportFailure ∈
        (solve (fun a _ => a) 1 ([[1], [2]] : List (List Int)) [[3], [4]]
          (List.replicate 2 0) (List.replicate 2 0)).2.2 ∧
     SolveAction.abortRun ∉
        (solve (fun a _ => a) 1 ([[1], [2]] : List (List Int)) [[3], [4]]
          (List.replicate 2 0) (List.replicate 2 0)).2.2 ∧
     SolveAction.downloadP ∈
        (solve (fun a _ => a) 1 ([[1], [2]] : List (List Int)) [[3], [4]]
          (List.replicate 2 0) (List.replicate 2 0)).2.2 ∧
     (solve (fun a _ => a) 1 ([[1], [2]] : List (List Int)) [[3], [4]]
        (List.replicate 2 0) (List.replicate 2 0)).1 =
       (solve (fun a _ => a) AMGX_SOLVE_SUCCESS ([[1], [2]] : List (List Int))
          [[3], [4]] (List.replicate 2 0) (List.replicate 2 0)).1) :=
  ⟨by decide,
   C9_solve_failure_reported (fun a _ => a) 1 [[1], [2]] [[3], [4]]
     (List.replicate 2 0) (List.replicate 2 0) (by decide)⟩

/-- C10: the right-hand side `B` is read (gathered and uploaded) but never
written back: after `solve`, every rank's `B` is its input `B`; only `X`
receives scattered results. -/
theorem C10_solve_B_unchanged {α : Type} (engine : List α → List α → List α)
    (status : Int) (xs bs : List (List α)) (bufX bufB : List α) :
    (solve engine status xs bs bufX bufB).2.1 = bs := rfl

theorem takeWhile_filter_of_sorted {α : Type} (cmap : Nat → Int) (cstart : Int)
    (o : List (Nat × α))
    (hs : List.Sorted (· ≤ ·) (o.map (fun e => cmap e.1))) :
    o.takeWhile (fun e => decide (cmap e.1 < cstart)) =
        o.filter (fun e => decide (cmap e.1 < cstart)) ∧
      o.dropWhile (fun e => decide (cmap e.1 < cstart)) =
        o.filter (fun e => ! decide (cmap e.1 < cstart)) := by
  induction o with
  | nil => exact ⟨rfl, rfl⟩
  | cons e es ih =>
    rw [List.map_cons, List.Sorted, List.pairwise_cons] at hs
    have hall : ∀ x ∈ es, cmap e.1 ≤ cmap x.1 := by
      intro x hx
      exact hs.1 (cmap x.1) (List.mem_map.mpr ⟨x, hx, rfl⟩)
    have ihs := ih hs.2
    by_cases hp : cmap e.1 < cstart
    · have hd : decide (cmap e.1 < cstart) = true := decide_eq_true hp
      refine ⟨?_, ?_⟩
      · rw [List.takeWhile_cons, List.filter_cons, hd, if_pos rfl, if_pos rfl,
          ihs.1]
      · rw [List.dropWhile_cons, List.filter_cons, hd, if_pos rfl,
          Bool.not_true, if_neg (by simp), ihs.2]
    · have hd : decide (cmap e.1 < cstart) = false := decide_eq_false hp
      have hnone : ∀ x ∈ es, ¬ (cmap x.1 < cstart) := by
        intro x hx
        have := hall x hx
        omega
      refine ⟨?_, ?_⟩
      · rw [List.takeWhile_cons, List.filter_cons, hd, if_neg (by simp),
          if_neg (by simp)]
        symm
        rw [List.filter_eq_nil_iff]
        intro x hx
        simp only [decide_eq_true_eq]
        exact hnone x hx
      · rw [List.dropWhile_cons, List.filter_cons, hd, if_neg (by simp),
          Bool.not_false, if_pos rfl]
        have hself : ∀ a ∈ es, (! decide (cmap a.1 < cstart)) = true := by
          intro a ha
          rw [decide_eq_false (hnone a ha)]
          rfl
        rw [List.filter_eq_self.mpr hself]

theorem getD_map_any {β γ : Type} (f : β → γ) (l : List β) (i : Nat)
    (dβ : β) (dγ : γ) (h : i < l.length) :
    (l.map f).getD i dγ = f (l.getD i dβ) := by
  rw [List.getD_eq_getElem _ _ (by simpa using h), List.getD_eq_getElem _ _ h,
    List.getElem_map]

theorem getD_mem_any {β : Type} {l : List β} {i : Nat} {dflt : β}
    (h : i < l.length) : l.getD i dflt ∈ l := by
  rw [List.getD_eq_getElem _ _ h]
  exact List.getElem_mem _

theorem scanl_getD_zero {β : Type} (f : Int → β → Int) (b : Int) (l : List β) :
    (List.scanl f b l).getD 0 0 = b := by
  cases l <;> rfl

theorem scanl_add_getD {β : Type} (g : β → Int) (dflt : β) (l : List β) :
    ∀ (b : Int) (i : Nat), i < l.length →
      (List.scanl (fun acc x => acc + g x) b l).getD (i + 1) 0 =
        (List.scanl (fun acc x => acc + g x) b l).getD i 0 + g (l.getD i dflt) := by
  induction l with
  | nil => intro b i h; simp at h
  | cons x xs ih =>
    intro b i h
    rw [List.scanl_cons, List.singleton_append]
    cases i with
    | zero =>
      rw [List.getD_cons_succ, List.getD_cons_zero, scanl_getD_zero,
        List.getD_cons_zero]
    | succ i =>
      rw [List.getD_cons_succ, List.getD_cons_succ, List.getD_cons_succ]
      exact ih (b + g x) i (by simpa using h)

/-- C5: for inputs satisfying the contract (aligned row counts, per-row
off-diagonal entries sorted by mapped global column), the produced fragment's
row pointer starts at 0, each row's entry count is the diagonal row length
plus the off-diagonal row length (and equals the emitted row's length), and
each emitted row is: off-diagonal entries with global column `< cstart`, then
the diagonal entries at `cstart +` local column, then the remaining
off-diagonal entries. -/
theorem C5_getLocalA_spec {α : Type} (cmap : Nat → Int) (cstart : Int)
    (d o : List (List (Nat × α))) (hlen : d.length = o.length)
    (hs : ∀ row ∈ o, List.Sorted (· ≤ ·) (row.map (fun e => cmap e.1))) :
    (getLocalI d o).getD 0 0 = 0 ∧
    (∀ i, i < d.length →
      (getLocalI d o).getD (i + 1) 0 - (getLocalI d o).getD i 0 =
        ((d.getD i []).length : Int) + ((o.getD i []).length : Int)) ∧
    (∀ i, i < d.length →
      ((getLocalJA cmap cstart d o).getD i []).length =
        (d.getD i []).length + (o.getD i []).length) ∧
    (∀ i, i < d.length →
      (getLocalJA cmap cstart d o).getD i [] =
        ((o.getD i []).filter (fun e => decide (cmap e.1 < cstart))).map
            (fun e => (cmap e.1, e.2)) ++
          (d.getD i []).map (fun e => (cstart + (e.1 : Int), e.2)) ++
          ((o.getD i []).filter (fun e => ! decide (cmap e.1 < cstart))).map
            (fun e => (cmap e.1, e.2))) := by
  have hzlen : (d.zip o).length = d.length := by
    rw [List.length_zip]
    omega
  have hzget : ∀ i, i < d.length →
      (d.zip o).getD i ([], []) = (d.getD i [], o.getD i []) := by
    intro i hi
    rw [List.getD_eq_getElem _ _ (by omega), List.getElem_zip]
    rw [List.getD_eq_getElem _ _ hi, List.getD_eq_getElem _ _ (by omega)]
  have hzget1 : ∀ i, i < d.length →
      ((d.zip o).getD i ([], [])).1 = d.getD i [] := by
    intro i hi
    rw [hzget i hi]
  have hzget2 : ∀ i, i < d.length →
      ((d.zip o).getD i ([], [])).2 = o.getD i [] := by
    intro i hi
    rw [hzget i hi]
  refine ⟨scanl_getD_zero _ 0 _, ?_, ?_, ?_⟩
  · intro i hi
    have hfun : (fun (acc : Int) (p : List (Nat × α) × List (Nat × α)) =>
        acc + (p.1.length : Int) + (p.2.length : Int)) =
        fun acc p => acc + ((p.1.length : Int) + (p.2.length : Int)) := by
      funext acc p
      ring
    rw [getLocalI, hfun,
      scanl_add_getD (fun p : List (Nat × α) × List (Nat × α) =>
        (p.1.length : Int) + (p.2.length : Int)) ([], []) (d.zip o) 0 i (by omega),
      hzget1 i hi, hzget2 i hi]
    ring
  · intro i hi
    have hmapget := getD_map_any
      (fun p : List (Nat × α) × List (Nat × α) => emitRow cmap cstart p.1 p.2)
      (d.zip o) i ([], []) [] (by omega)
    rw [getLocalJA, hmapget]
    simp only [hzget1 i hi, hzget2 i hi]
    rw [emitRow, List.length_append, List.length_append, List.length_map,
      List.length_map, List.length_map]
    have hsplit := congrArg List.length
      (List.takeWhile_append_dropWhile (fun e => decide (cmap e.1 < cstart))
        (o.getD i []))
    rw [List.length_append] at hsplit
    omega
  · intro i hi
    have hmapget := getD_map_any
      (fun p : List (Nat × α) × List (Nat × α) => emitRow cmap cstart p.1 p.2)
      (d.zip o) i ([], []) [] (by omega)
    rw [getLocalJA, hmapget]
    simp only [hzget1 i hi, hzget2 i hi]
    rw [emitRow]
    have hrow : o.getD i [] ∈ o ∨ (o.getD i [] : List (Nat × α)) = [] := by
      by_cases hio : i < o.length
      · exact Or.inl (getD_mem_any hio)
      · right
        rw [List.getD_eq_getElem?_getD, List.getElem?_eq_none (by omega)]
        rfl
    have hsrow : List.Sorted (· ≤ ·) ((o.getD i []).map (fun e => cmap e.1)) := by
      rcases hrow with h | h
      · exact hs _ h
      · rw [h]
        exact List.sorted_nil
    have hfd := takeWhile_filter_of_sorted cmap cstart (o.getD i []) hsrow
    rw [hfd.1, hfd.2]

/-- C1 counterexample: the fragments `[0,0]`, `[0,1]`, `[0,1]` are monotone
non-decreasing and each starts at 0, yet the merged row pointer is not
monotone and the code's `local_nnz` differs from the sum of the fragments'
final values (a rank whose first row is empty breaks the zero scan). -/
theorem C1_merge_counterexample :
    (∀ F ∈ ([[0, 0], [0, 1], [0, 1]] : List (List Int)),
        F.headD 1 = 0 ∧ List.Sorted (· ≤ ·) F) ∧
    ¬ (List.Sorted (· ≤ ·)
        ((mergeRowPtr 3 ([[0, 0], [0, 1], [0, 1]] : List (List Int)).flatten).take 4) ∧
       setA_local_nnz 3 ([[0, 0], [0, 1], [0, 1]] : List (List Int)).flatten =
         (([[0, 0], [0, 1], [0, 1]] : List (List Int)).map lastD).sum) := by decide

/-- C1 witness: the scenario `[0,2,5], [0,3], [0,1,4]` merges to
`[0,2,5,8,9,12]` and instantiates the amended theorem. -/
theorem C1_merge_witness :
    ((mergeRowPtr exFrags.length exFrags.flatten).take 6 = [0, 2, 5, 8, 9, 12] ∧
      1 ≤ exFrags.length ∧ (∀ F ∈ exFrags, GoodFrag F)) ∧
    (List.Sorted (· ≤ ·) ((mergeRowPtr exFrags.length exFrags.flatten).take
        (exFrags.flatten.length - (exFrags.length - 1))) ∧
     ((mergeRowPtr exFrags.length exFrags.flatten).take
        (exFrags.flatten.length - (exFrags.length - 1))).length =
       (exFrags.map List.length).sum - (exFrags.length - 1) ∧
     setA_local_nnz exFrags.length exFrags.flatten = (exFrags.map lastD).sum) :=
  ⟨⟨by decide, by decide, by decide⟩, C1_merge_spec exFrags (by decide) (by decide)⟩

/-- C2 witness: the 4-process, 2-device scenario (device 0 to ranks 0 and 1
with rank 0 leader; device 1 to ranks 2 and 3 with rank 2 leader), plus the
general theorem instantiated at rank 1. -/
theorem C2_setDeviceIDs_witness :
    (setDeviceIDs 4 2 0 = (0, true) ∧ setDeviceIDs 4 2 1 = (0, false) ∧
     setDeviceIDs 4 2 2 = (1, true) ∧ setDeviceIDs 4 2 3 = (1, false)) ∧
    ((setDeviceIDs 4 2 1).1 < 2 ∧
     (∀ d, d < 2 →
       ((setDeviceIDs 4 2 1).1 = d ↔
         d * (4 / 2) + min d (4 % 2) ≤ 1 ∧
         1 < d * (4 / 2) + min d (4 % 2) + (4 / 2 + if d < 4 % 2 then 1 else 0))) ∧
     ((setDeviceIDs 4 2 1).2 = true ↔
       1 = (setDeviceIDs 4 2 1).1 * (4 / 2) +
         min ((setDeviceIDs 4 2 1).1) (4 % 2))) :=
  ⟨by decide, C2_setDeviceIDs_spec 4 2 1 (by decide) (by decide) (by decide)⟩

/-- C5 witness: the extractor theorem instantiated on a concrete two-row
block with column-range start 3. -/
theorem C5_getLocalA_witness :
    (exDiag.length = exOffd.length ∧
      (∀ row ∈ exOffd, List.Sorted (· ≤ ·) (row.map (fun e => exCmap e.1)))) ∧
    ((getLocalI exDiag exOffd).getD 0 0 = 0 ∧
     (∀ i, i < exDiag.length →
        (getLocalI exDiag exOffd).getD (i + 1) 0 -
            (getLocalI exDiag exOffd).getD i 0 =
          ((exDiag.getD i []).length : Int) + ((exOffd.getD i []).length : Int)) ∧
     (∀ i, i < exDiag.length →
        ((getLocalJA exCmap 3 exDiag exOffd).getD i []).length =
          (exDiag.getD i []).length + (exOffd.getD i []).length) ∧
     (∀ i, i < exDiag.length →
        (getLocalJA exCmap 3 exDiag exOffd).getD i [] =
          ((exOffd.getD i []).filter (fun e => decide (exCmap e.1 < 3))).map
              (fun e => (exCmap e.1, e.2)) ++
            (exDiag.getD i []).map (fun e => ((3 : Int) + (e.1 : Int), e.2)) ++
            ((exOffd.getD i []).filter (fun e => ! decide (exCmap e.1 < 3))).map
              (fun e => (exCmap e.1, e.2)))) :=
  ⟨⟨by decide, by decide⟩,
   C5_getLocalA_spec exCmap 3 exDiag exOffd (by decide) (by decide)⟩

end AmgX
